import Mathlib

/-!
Verification of the Socio.io content-moderation backend.

This file gives a shallow embedding of the core of the repository:

* the Python `str.replace`-based masking of flagged spans
  (`backend/python_text_filter.py`),
* the regex-driven text filter of the browser-extension backend
  (`extension/backend/content_filter.py`, `extension/backend/app.py`),
* the Fernet-based reversible cipher wrappers (`encrypt_content` /
  `decrypt_content`) and the `/decrypt` HTTP endpoint,
* the Google-Vision score adapter and safety classifier
  (`backend/image_content_filter.py`),
* the redaction/recovery engine, whose implementation
  (`text_processing_module.process_text` / `recover_encrypted_text`) is not
  part of the sources; it is modelled from the specification (§4.4, §4.6).

Python strings are modelled as `List Char`, byte strings as `List Nat`.
External capabilities (the `cryptography` Fernet cipher, base64, UTF-8) are
modelled as abstract codecs; theorems assume only their round-trip
contracts pointwise.
-/

/-- Characters of a Python string. -/
abbrev Str := List Char

/-- Byte strings exchanged with the external encoding/cipher libraries. -/
abbrev Bytes := List Nat

/-- An external encoder/decoder pair (UTF-8, base64, or the Fernet cipher):
encoding is total, decoding may fail (raise) on invalid input. -/
structure Codec (α β : Type) where
  enc : α → β
  dec : β → Option α

/-- Fuel-driven worker for `pyReplace`.  At each position, if the pattern `p`
is a prefix of the remaining input the replacement `r` is emitted and the
match is skipped, otherwise one character is copied; this is the
left-to-right, non-overlapping semantics of Python's `str.replace`.
The fuel argument only makes the recursion structural; it is always called
with enough fuel. -/
def pyReplaceGoF (p r : Str) : Nat → Str → Str
  | 0, s => s
  | _ + 1, [] => []
  | fuel + 1, c :: s =>
    if p.isPrefixOf (c :: s) then r ++ pyReplaceGoF p r fuel (s.drop (p.length - 1))
    else c :: pyReplaceGoF p r fuel s

/-- Python's `s.replace(p, r)`: replace every non-overlapping occurrence of
`p` in `s` by `r`, scanning left to right.  An empty pattern inserts `r`
at every character boundary, exactly as in Python. -/
def pyReplace (s p r : Str) : Str :=
  if p.isEmpty then r ++ (s.map (fun c => c :: r)).flatten
  else pyReplaceGoF p r s.length s

/-- The generic mask of `backend/python_text_filter.py` line 56 (and the
substitution lambda of `extension/backend/content_filter.py` line 86):
a flagged value is replaced by `'*' * len(value)`. -/
def maskStar (s : Str) : Str := List.replicate s.length '*'

/-- The payment-card mask of `backend/python_text_filter.py` lines 63-64:
`'*' * (len(item) - 4) + item[-4:]` — all but the trailing four characters
are replaced by asterisks.  Like Python, lengths below 4 clamp: the mask is
then the item itself. -/
def maskCard (item : Str) : Str :=
  List.replicate (item.length - 4) '*' ++ item.drop (item.length - 4)

/-- Modelled from the spec: §4.4 distinguishes the generic full-asterisk
masking rule from the payment-card partial-reveal rule; the implementation
(`text_processing_module`) is not under the sources. -/
inductive MaskRule
  | generic
  | card
  deriving DecidableEq, Repr

/-- Modelled from the spec: the mask used for a matched literal value,
chosen by the value's category (§4.4 step 3). -/
def maskFor : MaskRule → Str → Str
  | .generic, v => maskStar v
  | .card, v => maskCard v

/-- Modelled from the spec: a `LogEntry` of the encryption log (§3): the
ciphertext of the redacted literal value together with its category; the
log is the sole means of recovery. -/
structure LogEntry where
  ciphertext : Str
  category : MaskRule
  deriving DecidableEq, Repr

/-- Modelled from the spec: the `RedactionResult` record (§3). -/
structure RedactionResult where
  original : Str
  modified : Str
  log : List LogEntry
  deriving DecidableEq, Repr

/-- Modelled from the spec: the Redaction Engine (§4.4), whose source
(`text_processing_module.process_text`) is not under `src/`.  For every
matched literal value, in order: encrypt it, append a log entry, and
replace every occurrence of the value in the working copy by its
same-length mask. -/
def redact (enc : Str → Str) (t : Str) (vals : List (Str × MaskRule)) :
    RedactionResult :=
  let res := vals.foldl
    (fun (acc : Str × List LogEntry) vr =>
      (pyReplace acc.1 vr.1 (maskFor vr.2 vr.1), acc.2 ++ [⟨enc vr.1, vr.2⟩]))
    (t, [])
  ⟨t, res.1, res.2⟩

/-- Modelled from the spec: the Recovery Engine (§4.6), whose source
(`text_processing_module.recover_encrypted_text`) is not under `src/`.
An empty log fails (`RecoveryLogMissing`); each entry is decrypted in
creation order and the corresponding mask replaced by the literal value;
a failing decrypt aborts the whole recovery (all-or-nothing). -/
def recover (dec : Str → Option Str) (processed : Str) (log : List LogEntry) :
    Option Str :=
  if log.isEmpty then none
  else
    log.foldlM
      (fun acc e =>
        (dec e.ciphertext).map (fun v => pyReplace acc (maskFor e.category v) v))
      processed

/-- `ContentFilter.encrypt_content` (`extension/backend/content_filter.py`
lines 186-209): UTF-8 encode, encrypt with the process-lifetime Fernet
cipher, then base64-encode the token.  The three external primitives are
the codec parameters `utf8`, `fernet` and `b64`. -/
def encrypt_content (utf8 : Codec Str Bytes) (fernet : Codec Bytes Bytes)
    (b64 : Codec Bytes Str) (content : Str) : Str :=
  b64.enc (fernet.enc (utf8.enc content))

/-- `ContentFilter.decrypt_content` (`extension/backend/content_filter.py`
lines 211-234): base64-decode, Fernet-decrypt, UTF-8 decode; any failure is
caught and the empty string returned. -/
def decrypt_content (utf8 : Codec Str Bytes) (fernet : Codec Bytes Bytes)
    (b64 : Codec Bytes Str) (encrypted : Str) : Str :=
  match b64.dec encrypted with
  | none => []
  | some tok =>
    match fernet.dec tok with
    | none => []
    | some pt =>
      match utf8.dec pt with
      | none => []
      | some s => s

/-- The `/decrypt` endpoint (`extension/backend/app.py` lines 85-102):
a missing `encrypted` field yields HTTP 400; otherwise the filter's
`decrypt_content` result is returned with HTTP 200.  The result is the
HTTP status paired with the `decrypted` field of the JSON body. -/
def decrypt_endpoint (utf8 : Codec Str Bytes) (fernet : Codec Bytes Bytes)
    (b64 : Codec Bytes Str) (body : Option Str) : Nat × Option Str :=
  match body with
  | none => (400, none)
  | some enc => (200, some (decrypt_content utf8 fernet b64 enc))

/-- A concrete instance of the UTF-8 codec interface, used to exercise the
theorems on concrete inputs: characters are mapped to their code points. -/
def asciiCodec : Codec Str Bytes :=
  ⟨fun s => s.map Char.toNat, fun bs => some (bs.map Char.ofNat)⟩

/-- A concrete instance of the Fernet interface, used to exercise the
theorems on concrete inputs: a tag byte is prepended on encryption and
checked on decryption (decryption fails on a foreign token). -/
def tagCipher : Codec Bytes Bytes :=
  ⟨fun bs => 7 :: bs,
   fun bs => match bs with
     | 7 :: r => some r
     | _ => none⟩

/-- A concrete instance of the base64 interface, used to exercise the
theorems on concrete inputs: bytes are rendered as code points. -/
def byteCodec : Codec Bytes Str :=
  ⟨fun bs => bs.map Char.ofNat, fun s => some (s.map Char.toNat)⟩

/-- A concrete string cipher for the spec-modelled redaction engine:
encryption prepends a tag character, decryption checks and removes it. -/
def tagEnc : Str → Str := fun v => 'E' :: v

/-- Decryption half of `tagEnc`: fails on strings not produced by it. -/
def tagDec : Str → Option Str := fun s =>
  match s with
  | 'E' :: v => some v
  | _ => none

/-- The six-point ordinal likelihood scale of the Google Vision
`SafeSearch` annotation consumed by `backend/image_content_filter.py`. -/
inductive Likelihood
  | unknown
  | very_unlikely
  | unlikely
  | possible
  | likely
  | very_likely
  deriving DecidableEq, Repr

/-- The fixed `likelihood_scores` table of
`backend/image_content_filter.py` lines 88-95. -/
def likelihoodScore : Likelihood → ℚ
  | .unknown => 0
  | .very_unlikely => 1 / 10
  | .unlikely => 3 / 10
  | .possible => 5 / 10
  | .likely => 7 / 10
  | .very_likely => 9 / 10

/-- The five SafeSearch categories scored by
`backend/image_content_filter.py` line 96. -/
inductive SafeCat
  | adult
  | violence
  | racy
  | medical
  | spoof
  deriving DecidableEq, Repr

/-- The `confidence_thresholds` mapping of
`backend/image_content_filter.py` lines 27-33. -/
def confidence_thresholds : SafeCat → ℚ
  | .adult => 7 / 10
  | .violence => 6 / 10
  | .racy => 7 / 10
  | .medical => 8 / 10
  | .spoof => 8 / 10

/-- The category names as they appear in the `content_flags` list. -/
def catName : SafeCat → Str
  | .adult => "adult".toList
  | .violence => "violence".toList
  | .racy => "racy".toList
  | .medical => "medical".toList
  | .spoof => "spoof".toList

/-- The SafeSearch annotation returned by the external Vision capability:
one ordinal likelihood per category. -/
structure SafeSearch where
  adult : Likelihood
  violence : Likelihood
  racy : Likelihood
  medical : Likelihood
  spoof : Likelihood
  deriving DecidableEq, Repr

/-- `getattr(safe_search, category)` of
`backend/image_content_filter.py` line 97. -/
def SafeSearch.get : SafeSearch → SafeCat → Likelihood
  | ss, .adult => ss.adult
  | ss, .violence => ss.violence
  | ss, .racy => ss.racy
  | ss, .medical => ss.medical
  | ss, .spoof => ss.spoof

/-- A free-text label annotation with confidence score, as returned by the
external Vision capability (`label_annotations`). -/
structure Label where
  description : Str
  score : ℚ
  deriving DecidableEq, Repr

/-- The `offensive_terms` list of `backend/image_content_filter.py`
line 35. -/
def offensive_terms : List Str :=
  ["hate".toList, "kill".toList, "attack".toList, "violence".toList,
   "racist".toList, "nazi".toList]

/-- Python's substring containment `needle in hay`. -/
def isSubstr (needle : Str) : Str → Bool
  | [] => needle.isEmpty
  | c :: t => needle.isPrefixOf (c :: t) || isSubstr needle t

/-- The label-flagging test of `backend/image_content_filter.py` line 104:
`label.score > 0.7 and any(keyword in label.description.lower() for
keyword in self.offensive_terms)`. -/
def labelFlagged (lab : Label) : Bool :=
  decide ((7 : ℚ) / 10 < lab.score) &&
    offensive_terms.any (fun k => isSubstr k (lab.description.map Char.toLower))

/-- The iteration order of the SafeSearch categories
(`backend/image_content_filter.py` line 96). -/
def cats : List SafeCat := [.adult, .violence, .racy, .medical, .spoof]

/-- The category flags appended by `backend/image_content_filter.py`
lines 96-100: the name of every category whose score reaches its
threshold, in iteration order. -/
def categoryFlags (ss : SafeSearch) : List Str :=
  (cats.filter
    (fun c => decide (confidence_thresholds c ≤ likelihoodScore (ss.get c)))).map
    catName

/-- The label flags appended by `backend/image_content_filter.py`
lines 102-105: `"label:" + description` for every flagged label. -/
def labelFlags (labels : List Label) : List Str :=
  (labels.filter labelFlagged).map (fun lab => "label:".toList ++ lab.description)

/-- The full `content_flags` list built by
`ImageContentFilter._process_response`
(`backend/image_content_filter.py` lines 84-105). -/
def content_flags (ss : SafeSearch) (labels : List Label) : List Str :=
  categoryFlags ss ++ labelFlags labels

/-- `ImageContentFilter._determine_safety`
(`backend/image_content_filter.py` lines 110-118). -/
def determine_safety (flags : List Str) : Str :=
  if "adult".toList ∈ flags ∨ "violence".toList ∈ flags then "unsafe".toList
  else if flags.any (fun f => "label:".toList.isPrefixOf f) then
    "questionable".toList
  else if flags = [] then "safe".toList
  else "potentially_concerning".toList

/-- The `overall_safety` field computed by `_process_response`
(`backend/image_content_filter.py` line 107). -/
def overall_safety (ss : SafeSearch) (labels : List Label) : Str :=
  determine_safety (content_flags ss labels)

/-- A segment of a regex alternative in the `inappropriate_patterns` of
`extension/backend/content_filter.py` lines 36-43: a literal word
(lower-case, matched case-insensitively) or `\s+`. -/
inductive Seg
  | lit (w : Str)
  | wsPlus
  deriving DecidableEq, Repr

/-- One compiled pattern `\b(alt₁|alt₂|...)\b` of
`extension/backend/content_filter.py`: a list of alternatives, each a
sequence of segments.  All alternatives of the six source patterns start
and end with a letter, so the surrounding `\b` reduces to requiring a
non-word character (or the string edge) on each side. -/
structure Pattern where
  alts : List (List Seg)
  deriving DecidableEq, Repr

/-- Python's `\w` word characters, restricted to ASCII as used by the six
source patterns. -/
def isWordChar (c : Char) : Bool := c.isAlphanum || c = '_'

/-- The left word-boundary test: the character before the match position
(or nothing, at the start of the string) must not be a word character. -/
def noWordBefore : Option Char → Bool
  | none => true
  | some c => !isWordChar c

/-- The right word-boundary test at offset `n` of the remaining input. -/
def boundaryAfterAt (t : Str) (n : Nat) : Bool :=
  match t.get? n with
  | none => true
  | some c => !isWordChar c

/-- Case-insensitive literal match at the front of `t` (the pattern word
`w` is lower-case). -/
def matchLit (w t : Str) : Bool :=
  decide ((t.take w.length).map Char.toLower = w)

/-- Match a sequence of segments at the front of `t`, returning the number
of characters consumed.  `\s+` is matched greedily; on the six source
patterns (where `\s+` is always followed by a letter) this coincides with
Python's backtracking semantics. -/
def matchSegs : List Seg → Str → Option Nat
  | [], _ => some 0
  | .lit w :: rest, t =>
    if matchLit w t then (matchSegs rest (t.drop w.length)).map (· + w.length)
    else none
  | .wsPlus :: rest, t =>
    let k := (t.takeWhile Char.isWhitespace).length
    if k = 0 then none
    else (matchSegs rest (t.drop k)).map (· + k)

/-- Match a pattern at the current position: the char before the position
is `prev`, the remaining input is `t`.  Alternatives are tried in source
order (Python's leftmost-alternation with backtracking over the trailing
`\b`), and the first alternative that matches with a valid right boundary
wins. -/
def matchHere (p : Pattern) (prev : Option Char) (t : Str) : Option Nat :=
  if noWordBefore prev then
    p.alts.findSome? (fun alt =>
      match matchSegs alt t with
      | some n => if boundaryAfterAt t n then some n else none
      | none => none)
  else none

/-- Worker for `pattern.search`: scan every position left to right. -/
def searchGo (p : Pattern) : Option Char → Str → Bool
  | prev, [] => (matchHere p prev []).isSome
  | prev, c :: r => (matchHere p prev (c :: r)).isSome || searchGo p (some c) r

/-- `pattern.search(text)` of `extension/backend/content_filter.py`
line 75, as a Boolean. -/
def searchP (p : Pattern) (s : Str) : Bool := searchGo p none s

/-- Fuel-driven worker for `subStars`: scan left to right; at a match of
`n + 1` characters emit that many asterisks and continue after the match,
otherwise copy one character.  The fuel only makes the recursion
structural. -/
def subStarsGoF (p : Pattern) : Nat → Option Char → Str → Str
  | 0, _, s => s
  | _ + 1, _, [] => []
  | fuel + 1, prev, c :: s =>
    match matchHere p prev (c :: s) with
    | some (n + 1) =>
      List.replicate (n + 1) '*' ++ subStarsGoF p fuel ((c :: s).get? n) (s.drop n)
    | _ => c :: subStarsGoF p fuel (some c) s

/-- `pattern.sub(lambda m: '*' * len(m.group(0)), text)` of
`extension/backend/content_filter.py` line 86: every non-overlapping
leftmost match is replaced by a same-length run of asterisks. -/
def subStars (p : Pattern) (s : Str) : Str := subStarsGoF p s.length none s

/-- The compiled `inappropriate_patterns` of
`extension/backend/content_filter.py` lines 36-43, with the nested groups
`discriminat(e|ion|ory)` and `adult\s+content` expanded. -/
def cfPatterns : List Pattern :=
  [⟨[[.lit "hate".toList], [.lit "violence".toList], [.lit "abuse".toList],
     [.lit "explicit".toList], [.lit "obscene".toList]]⟩,
   ⟨[[.lit "racist".toList], [.lit "sexist".toList], [.lit "discriminate".toList],
     [.lit "discrimination".toList], [.lit "discriminatory".toList]]⟩,
   ⟨[[.lit "nsfw".toList], [.lit "porn".toList], [.lit "xxx".toList],
     [.lit "adult".toList, .wsPlus, .lit "content".toList]]⟩,
   ⟨[[.lit "kill".toList], [.lit "murder".toList], [.lit "assault".toList],
     [.lit "attack".toList], [.lit "threat".toList]]⟩,
   ⟨[[.lit "offensive".toList], [.lit "vulgar".toList], [.lit "profanity".toList],
     [.lit "swear".toList]]⟩,
   ⟨[[.lit "naked".toList], [.lit "nude".toList], [.lit "sex".toList],
     [.lit "sexual".toList], [.lit "erotic".toList]]⟩]

/-- Well-formedness check on a pattern alternative: its first segment is a
literal starting with a lower-case ASCII letter.  All alternatives of the
six source patterns satisfy it. -/
def altHeadLower : List Seg → Bool
  | .lit (c0 :: _) :: _ => 97 ≤ c0.toNat && c0.toNat ≤ 122
  | _ => false

/-- The running counters of `ContentFilter.__init__`
(`extension/backend/content_filter.py` lines 25-29). -/
structure CFStats where
  text_filtered : Nat
  images_filtered : Nat
  total_requests : Nat
  deriving DecidableEq, Repr

/-- The result dictionary of `ContentFilter.filter_text`: absent keys
(`patterns`, `encrypted` outside the filtered branch) are `none`.  The
input `text` may be Python `None`, hence `original`/`modified` are
optional too. -/
structure CFResult where
  filtered : Bool
  reason : Str
  original : Option Str
  modified : Option Str
  patterns : Option (List Pattern)
  encrypted : Option Str
  deriving DecidableEq, Repr

/-- `ContentFilter.filter_text` (`extension/backend/content_filter.py`
lines 50-104): bump `total_requests`; short or missing text returns
unfiltered with reason "Text too short"; otherwise search the six
patterns, and on any match encrypt the original, substitute asterisk
masks for every match of every pattern and bump `text_filtered`. -/
def filter_text (utf8 : Codec Str Bytes) (fernet : Codec Bytes Bytes)
    (b64 : Codec Bytes Str) (st : CFStats) (text : Option Str) :
    CFResult × CFStats :=
  let st := { st with total_requests := st.total_requests + 1 }
  match text with
  | none =>
    ({ filtered := false, reason := "Text too short".toList, original := none,
       modified := none, patterns := none, encrypted := none }, st)
  | some s =>
    if s.length < 3 then
      ({ filtered := false, reason := "Text too short".toList,
         original := some s, modified := some s, patterns := none,
         encrypted := none }, st)
    else
      let matched := cfPatterns.filter (fun p => searchP p s)
      if matched.isEmpty then
        ({ filtered := false,
           reason := "No inappropriate content detected".toList,
           original := some s, modified := some s, patterns := none,
           encrypted := none }, st)
      else
        ({ filtered := true,
           reason := "Inappropriate content detected".toList,
           original := some s,
           modified := some (cfPatterns.foldl (fun acc p => subStars p acc) s),
           patterns := some matched,
           encrypted := some (encrypt_content utf8 fernet b64 s) },
         { st with text_filtered := st.text_filtered + 1 })

theorem pyReplaceGoF_nil (p r : Str) (fuel : Nat) : pyReplaceGoF p r fuel [] = [] := by
  cases fuel <;> rfl

theorem pyReplaceGoF_irrel (p r : Str) :
    ∀ f g s, s.length ≤ f → s.length ≤ g →
      pyReplaceGoF p r f s = pyReplaceGoF p r g s := by
  intro f
  induction f with
  | zero =>
    intro g s hf _
    have hs : s = [] := List.eq_nil_of_length_eq_zero (Nat.le_zero.mp hf)
    subst hs
    simp [pyReplaceGoF_nil]
  | succ f ih =>
    intro g s hf hg
    cases s with
    | nil => simp [pyReplaceGoF_nil]
    | cons c s =>
      cases g with
      | zero => simp at hg
      | succ g =>
        have hf' : s.length ≤ f := by simp [List.length_cons] at hf; omega
        have hg' : s.length ≤ g := by simp [List.length_cons] at hg; omega
        simp only [pyReplaceGoF]
        by_cases hpre : p.isPrefixOf (c :: s)
        · simp only [if_pos hpre]
          congr 1
          apply ih
          · rw [List.length_drop]; omega
          · rw [List.length_drop]; omega
        · simp only [if_neg hpre]
          congr 1
          exact ih g s hf' hg'

theorem pyReplace_nil (p r : Str) (hp : p ≠ []) : pyReplace [] p r = [] := by
  have hpe : p.isEmpty = false := by cases p with
    | nil => exact absurd rfl hp
    | cons a q => rfl
  simp [pyReplace, hpe, pyReplaceGoF_nil]

theorem pyReplace_cons (p r : Str) (hp : p ≠ []) (c : Char) (s : Str) :
    pyReplace (c :: s) p r =
      if p.isPrefixOf (c :: s) then r ++ pyReplace ((c :: s).drop p.length) p r
      else c :: pyReplace s p r := by
  obtain ⟨k, hk⟩ : ∃ k, p.length = k + 1 := by
    cases p with
    | nil => exact absurd rfl hp
    | cons a q => exact ⟨q.length, rfl⟩
  have hpe : p.isEmpty = false := by cases p with
    | nil => exact absurd rfl hp
    | cons a q => rfl
  have hdrop : (c :: s).drop p.length = s.drop (p.length - 1) := by
    rw [hk]; simp
  simp only [pyReplace, hpe, Bool.false_eq_true, if_false, List.length_cons]
  simp only [pyReplaceGoF]
  by_cases hpre : p.isPrefixOf (c :: s)
  · simp only [if_pos hpre, hdrop]
    congr 1
    apply pyReplaceGoF_irrel
    · rw [List.length_drop]; omega
    · exact le_refl _
  · simp only [if_neg hpre]

theorem flatten_map_singleton : ∀ t : Str, (t.map (fun c => c :: ([] : Str))).flatten = t := by
  intro t
  induction t with
  | nil => rfl
  | cons c s ih => simp [ih]

theorem pyReplace_empty_pat (t : Str) : pyReplace t [] [] = t := by
  simp [pyReplace, flatten_map_singleton]

theorem pyReplace_self_aux :
    ∀ (n : Nat) (t : Str), t.length ≤ n → ∀ (v : Str), v ≠ [] → pyReplace t v v = t := by
  intro n
  induction n with
  | zero =>
    intro t ht v hv
    have hs : t = [] := List.eq_nil_of_length_eq_zero (Nat.le_zero.mp ht)
    subst hs
    exact pyReplace_nil v v hv
  | succ n ih =>
    intro t ht v hv
    cases t with
    | nil => exact pyReplace_nil v v hv
    | cons c s =>
      rw [pyReplace_cons v v hv]
      by_cases hpre : v.isPrefixOf (c :: s)
      · simp only [if_pos hpre]
        obtain ⟨t', heq⟩ := List.isPrefixOf_iff_prefix.mp hpre
        have hdrop : (c :: s).drop v.length = t' := by
          rw [← heq, List.drop_left]
        rw [hdrop, ih t' ?_ v hv]
        · exact heq
        · have := congrArg List.length heq
          simp [List.length_append] at this
          simp [List.length_cons] at ht
          cases v with
          | nil => exact absurd rfl hv
          | cons a q => simp [List.length_cons] at this; omega
      · simp only [if_neg hpre]
        rw [ih s ?_ v hv]
        simp [List.length_cons] at ht; omega

/-- Python's `t.replace(v, v)` is the identity. -/
theorem pyReplace_self (t v : Str) : pyReplace t v v = t := by
  by_cases hv : v = []
  · subst hv; exact pyReplace_empty_pat t
  · exact pyReplace_self_aux t.length t (le_refl _) v hv

theorem pyReplace_append_pat (m v : Str) (hm : m ≠ []) (X : Str) :
    pyReplace (m ++ X) m v = v ++ pyReplace X m v := by
  cases hms : m with
  | nil => exact absurd hms hm
  | cons a m'' =>
    rw [← hms]
    have hcons : m ++ X = a :: (m'' ++ X) := by rw [hms]; rfl
    rw [hcons, pyReplace_cons m v hm]
    have hpre : m.isPrefixOf (a :: (m'' ++ X)) = true := by
      rw [← hcons]
      exact List.isPrefixOf_iff_prefix.mpr (List.prefix_append m X)
    rw [if_pos hpre, ← hcons, List.drop_left]

theorem pyReplace_roundtrip_aux :
    ∀ (n : Nat) (t : Str), t.length ≤ n → (∀ c ∈ t, c ≠ '*') →
      ∀ (v m : Str), v ≠ [] → (∃ m', m = '*' :: m') →
        pyReplace (pyReplace t v m) m v = t := by
  intro n
  induction n with
  | zero =>
    intro t ht _ v m hv hm
    have hmne : m ≠ [] := by obtain ⟨m', rfl⟩ := hm; simp
    have hs : t = [] := List.eq_nil_of_length_eq_zero (Nat.le_zero.mp ht)
    subst hs
    rw [pyReplace_nil v m hv, pyReplace_nil m v hmne]
  | succ n ih =>
    intro t ht hstar v m hv hm
    have hmne : m ≠ [] := by obtain ⟨m', rfl⟩ := hm; simp
    cases t with
    | nil => rw [pyReplace_nil v m hv, pyReplace_nil m v hmne]
    | cons c s =>
      rw [pyReplace_cons v m hv]
      by_cases hpre : v.isPrefixOf (c :: s)
      · simp only [if_pos hpre]
        obtain ⟨t', heq⟩ := List.isPrefixOf_iff_prefix.mp hpre
        have hdrop : (c :: s).drop v.length = t' := by
          rw [← heq, List.drop_left]
        rw [hdrop, pyReplace_append_pat m v hmne]
        have hlen : t'.length ≤ n := by
          have := congrArg List.length heq
          simp only [List.length_append, List.length_cons] at this
          simp only [List.length_cons] at ht
          cases v with
          | nil => exact absurd rfl hv
          | cons a q => simp only [List.length_cons] at this; omega
        have hstar' : ∀ x ∈ t', x ≠ '*' := by
          intro x hx
          exact hstar x (by rw [← heq]; exact List.mem_append_right v hx)
        rw [ih t' hlen hstar' v m hv hm, heq]
      · simp only [if_neg hpre]
        have hc : c ≠ '*' := hstar c (List.mem_cons_self c s)
        obtain ⟨m', hm'⟩ := hm
        have hnp : m.isPrefixOf (c :: pyReplace s v m) = false := by
          rw [hm']
          simp [List.isPrefixOf]
          intro h
          exact absurd h.symm hc
        rw [pyReplace_cons m v hmne, if_neg (by rw [hnp]; simp)]
        have hlen : s.length ≤ n := by simp [List.length_cons] at ht; omega
        rw [ih s hlen (fun x hx => hstar x (List.mem_cons_of_mem c hx)) v m hv ⟨m', hm'⟩]

/-- Replacing a nonempty value by a mask starting with `'*'` and then
replacing the mask back is the identity on asterisk-free text. -/
theorem pyReplace_roundtrip (t v m : Str) (hstar : ∀ c ∈ t, c ≠ '*')
    (hv : v ≠ []) (hm : ∃ m', m = '*' :: m') :
    pyReplace (pyReplace t v m) m v = t :=
  pyReplace_roundtrip_aux t.length t (le_refl _) hstar v m hv hm

theorem pyReplace_length_aux :
    ∀ (n : Nat) (t : Str), t.length ≤ n → ∀ (p r : Str), r.length = p.length →
      (pyReplace t p r).length = t.length := by
  intro n
  induction n with
  | zero =>
    intro t ht p r hlen
    have hs : t = [] := List.eq_nil_of_length_eq_zero (Nat.le_zero.mp ht)
    subst hs
    by_cases hp : p = []
    · subst hp
      have hr : r = [] := List.eq_nil_of_length_eq_zero hlen
      subst hr
      rw [pyReplace_empty_pat]
    · rw [pyReplace_nil p r hp]
  | succ n ih =>
    intro t ht p r hlen
    by_cases hp : p = []
    · subst hp
      have hr : r = [] := List.eq_nil_of_length_eq_zero hlen
      subst hr
      rw [pyReplace_empty_pat]
    · cases t with
      | nil => rw [pyReplace_nil p r hp]
      | cons c s =>
        rw [pyReplace_cons p r hp]
        by_cases hpre : p.isPrefixOf (c :: s)
        · simp only [if_pos hpre]
          obtain ⟨t', heq⟩ := List.isPrefixOf_iff_prefix.mp hpre
          have hdrop : (c :: s).drop p.length = t' := by
            rw [← heq, List.drop_left]
          have hlen' : t'.length ≤ n := by
            have := congrArg List.length heq
            simp only [List.length_append, List.length_cons] at this
            simp only [List.length_cons] at ht
            cases p with
            | nil => exact absurd rfl hp
            | cons a q => simp only [List.length_cons] at this; omega
          rw [hdrop, List.length_append, ih t' hlen' p r hlen, ← heq,
            List.length_append, hlen]
        · simp only [if_neg hpre, List.length_cons]
          rw [ih s (by simp [List.length_cons] at ht; omega) p r hlen]

/-- `str.replace` with a same-length replacement preserves the length. -/
theorem pyReplace_length (t p r : Str) (h : r.length = p.length) :
    (pyReplace t p r).length = t.length :=
  pyReplace_length_aux t.length t (le_refl _) p r h

theorem matchLit_length_le {w t : Str} (h : matchLit w t = true) :
    w.length ≤ t.length := by
  unfold matchLit at h
  rw [decide_eq_true_eq] at h
  have hl := congrArg List.length h
  simp only [List.length_map, List.length_take] at hl
  omega

theorem length_takeWhile_le (p : Char → Bool) (t : Str) :
    (t.takeWhile p).length ≤ t.length := by
  induction t with
  | nil => simp [List.takeWhile]
  | cons c s ih =>
    simp only [List.takeWhile]
    cases p c <;> simp <;> omega

theorem matchSegs_le : ∀ (segs : List Seg) (t : Str) (n : Nat),
    matchSegs segs t = some n → n ≤ t.length := by
  intro segs
  induction segs with
  | nil =>
    intro t n h
    simp [matchSegs] at h
    omega
  | cons sg rest ih =>
    intro t n h
    cases sg with
    | lit w =>
      simp only [matchSegs] at h
      by_cases hml : matchLit w t
      · rw [if_pos hml] at h
        cases hms : matchSegs rest (t.drop w.length) with
        | none => rw [hms] at h; simp at h
        | some n' =>
          rw [hms] at h
          simp only [Option.map_some'] at h
          have h1 := ih _ _ hms
          have h2 := matchLit_length_le hml
          rw [List.length_drop] at h1
          injection h with h
          omega
      · rw [if_neg hml] at h; simp at h
    | wsPlus =>
      simp only [matchSegs] at h
      by_cases hk : (t.takeWhile Char.isWhitespace).length = 0
      · rw [if_pos hk] at h; simp at h
      · rw [if_neg hk] at h
        cases hms : matchSegs rest (t.drop (t.takeWhile Char.isWhitespace).length) with
        | none => rw [hms] at h; simp at h
        | some n' =>
          rw [hms] at h
          simp only [Option.map_some'] at h
          have h1 := ih _ _ hms
          have h2 := length_takeWhile_le Char.isWhitespace t
          rw [List.length_drop] at h1
          injection h with h
          omega

theorem matchHere_le {p : Pattern} {prev : Option Char} {t : Str} {n : Nat}
    (h : matchHere p prev t = some n) : n ≤ t.length := by
  unfold matchHere at h
  by_cases hb : noWordBefore prev = true
  · rw [if_pos hb] at h
    obtain ⟨alt, _, halt⟩ := List.exists_of_findSome?_eq_some h
    cases hms : matchSegs alt t with
    | none => rw [hms] at halt; simp at halt
    | some n' =>
      rw [hms] at halt
      change (if boundaryAfterAt t n' = true then some n' else none) = some n at halt
      by_cases hba : boundaryAfterAt t n' = true
      · rw [if_pos hba] at halt
        injection halt with halt
        subst halt
        exact matchSegs_le alt t n' hms
      · rw [if_neg hba] at halt; simp at halt
  · rw [if_neg hb] at h; simp at h

theorem subStarsGoF_length (p : Pattern) :
    ∀ (fuel : Nat) (prev : Option Char) (s : Str), s.length ≤ fuel →
      (subStarsGoF p fuel prev s).length = s.length := by
  intro fuel
  induction fuel with
  | zero => intro prev s _; rfl
  | succ fuel ih =>
    intro prev s h
    cases s with
    | nil => rfl
    | cons c s =>
      simp only [subStarsGoF]
      cases hm : matchHere p prev (c :: s) with
      | none =>
        simp only [List.length_cons]
        rw [ih (some c) s (by simp [List.length_cons] at h; omega)]
      | some n =>
        cases n with
        | zero =>
          simp only [List.length_cons]
          rw [ih (some c) s (by simp [List.length_cons] at h; omega)]
        | succ n =>
          have hle := matchHere_le hm
          simp only [List.length_cons] at hle h
          simp only [List.length_append, List.length_replicate]
          rw [ih ((c :: s).get? n) (s.drop n) (by rw [List.length_drop]; omega)]
          rw [List.length_drop, List.length_cons]
          omega

/-- The asterisk substitution of `content_filter.filter_text` preserves the
length of the text. -/
theorem subStars_length (p : Pattern) (s : Str) :
    (subStars p s).length = s.length :=
  subStarsGoF_length p s.length none s (le_refl _)

theorem char_ws_toNat {c : Char} (h : c.isWhitespace = true) :
    c.toNat = 32 ∨ c.toNat = 9 ∨ c.toNat = 13 ∨ c.toNat = 10 := by
  simp [Char.isWhitespace] at h
  rcases h with ((h | h) | h) | h <;> subst h <;> decide

theorem char_ws_toLower {c : Char} (h : c.isWhitespace = true) :
    c.toLower = c := by
  simp [Char.isWhitespace] at h
  rcases h with ((h | h) | h) | h <;> subst h <;> decide

theorem matchSegs_ws_none {alt : List Seg} (halt : altHeadLower alt = true)
    {t : Str} (hws : ∀ c ∈ t, c.isWhitespace = true) :
    matchSegs alt t = none := by
  cases alt with
  | nil => simp [altHeadLower] at halt
  | cons sg rest =>
    cases sg with
    | wsPlus => simp [altHeadLower] at halt
    | lit w =>
      cases w with
      | nil => simp [altHeadLower] at halt
      | cons c0 w' =>
        simp only [altHeadLower, Bool.and_eq_true, decide_eq_true_eq] at halt
        obtain ⟨h97, _⟩ := halt
        simp only [matchSegs]
        have hml : matchLit (c0 :: w') t = false := by
          unfold matchLit
          rw [decide_eq_false_iff_not]
          intro heq
          cases t with
          | nil => simp at heq
          | cons c t' =>
            rw [List.length_cons, List.take_succ_cons, List.map_cons] at heq
            injection heq with h1 _
            have hcws : c.isWhitespace = true := hws c (List.mem_cons_self c t')
            rw [char_ws_toLower hcws] at h1
            have hnat := congrArg Char.toNat h1
            have hw := char_ws_toNat hcws
            omega
        rw [hml]
        simp

theorem matchHere_ws_none {p : Pattern} (hp : p.alts.all altHeadLower = true)
    (prev : Option Char) {t : Str} (hws : ∀ c ∈ t, c.isWhitespace = true) :
    matchHere p prev t = none := by
  unfold matchHere
  by_cases hb : noWordBefore prev = true
  · rw [if_pos hb]
    rw [List.findSome?_eq_none_iff]
    intro alt halt
    have hnone := matchSegs_ws_none (List.all_eq_true.mp hp alt halt) hws
    simp [hnone]
  · rw [if_neg hb]

theorem searchGo_ws_false {p : Pattern} (hp : p.alts.all altHeadLower = true) :
    ∀ (t : Str), (∀ c ∈ t, c.isWhitespace = true) → ∀ prev,
      searchGo p prev t = false := by
  intro t
  induction t with
  | nil =>
    intro hws prev
    simp [searchGo, matchHere_ws_none hp prev hws]
  | cons c r ih =>
    intro hws prev
    simp only [searchGo]
    rw [matchHere_ws_none hp prev hws]
    simp [ih (fun x hx => hws x (List.mem_cons_of_mem c hx)) (some c)]

theorem searchP_ws_false {p : Pattern} (hp : p.alts.all altHeadLower = true)
    {t : Str} (hws : ∀ c ∈ t, c.isWhitespace = true) : searchP p t = false :=
  searchGo_ws_false hp t hws none

theorem cfPatterns_wf : cfPatterns.all (fun p => p.alts.all altHeadLower) = true := by
  decide

theorem catName_inj : ∀ c1 c2 : SafeCat, catName c1 = catName c2 → c1 = c2 := by
  intro c1 c2
  cases c1 <;> cases c2 <;> decide

theorem mem_cats (c : SafeCat) : c ∈ cats := by
  cases c <;> decide

theorem mem_categoryFlags (ss : SafeSearch) (c : SafeCat) :
    catName c ∈ categoryFlags ss ↔
      confidence_thresholds c ≤ likelihoodScore (ss.get c) := by
  unfold categoryFlags
  rw [List.mem_map]
  constructor
  · rintro ⟨c', hc', hname⟩
    rw [List.mem_filter] at hc'
    have hcc : c' = c := catName_inj c' c hname
    subst hcc
    exact of_decide_eq_true hc'.2
  · intro h
    exact ⟨c, List.mem_filter.mpr ⟨mem_cats c, decide_eq_true h⟩, rfl⟩

theorem label_flag_not_cat (d : Str) (c : SafeCat) :
    "label:".toList ++ d ≠ catName c := by
  intro h
  have hpre : ("label:".toList).isPrefixOf (catName c) = true := by
    rw [← h]
    exact List.isPrefixOf_iff_prefix.mpr (List.prefix_append _ d)
  cases c <;> revert hpre <;> decide

theorem mem_labelFlags (labels : List Label) (x : Str) :
    x ∈ labelFlags labels ↔
      ∃ lab ∈ labels, labelFlagged lab = true ∧
        x = "label:".toList ++ lab.description := by
  unfold labelFlags
  rw [List.mem_map]
  constructor
  · rintro ⟨lab, hmem, rfl⟩
    rw [List.mem_filter] at hmem
    exact ⟨lab, hmem.1, hmem.2, rfl⟩
  · rintro ⟨lab, hmem, hfl, rfl⟩
    exact ⟨lab, List.mem_filter.mpr ⟨hmem, hfl⟩, rfl⟩

theorem catName_mem_content_flags (ss : SafeSearch) (labels : List Label)
    (c : SafeCat) :
    catName c ∈ content_flags ss labels ↔
      confidence_thresholds c ≤ likelihoodScore (ss.get c) := by
  unfold content_flags
  rw [List.mem_append, mem_categoryFlags]
  constructor
  · rintro (h | h)
    · exact h
    · rw [mem_labelFlags] at h
      obtain ⟨lab, _, _, heq⟩ := h
      exact absurd heq.symm (label_flag_not_cat lab.description c)
  · exact Or.inl

theorem flags_any_label (ss : SafeSearch) (labels : List Label) :
    (content_flags ss labels).any (fun f => ("label:".toList).isPrefixOf f)
      = labels.any labelFlagged := by
  by_cases hR : labels.any labelFlagged = true
  · rw [hR, List.any_eq_true]
    rw [List.any_eq_true] at hR
    obtain ⟨lab, hmem, hfl⟩ := hR
    refine ⟨"label:".toList ++ lab.description, ?_, ?_⟩
    · unfold content_flags
      rw [List.mem_append, mem_labelFlags]
      exact Or.inr ⟨lab, hmem, hfl, rfl⟩
    · exact List.isPrefixOf_iff_prefix.mpr (List.prefix_append _ _)
  · have hR' : labels.any labelFlagged = false := by
      cases h : labels.any labelFlagged
      · rfl
      · exact absurd h hR
    rw [hR', List.any_eq_false]
    intro f hf
    unfold content_flags at hf
    rw [List.mem_append] at hf
    rcases hf with hf | hf
    · unfold categoryFlags at hf
      rw [List.mem_map] at hf
      obtain ⟨c, _, rfl⟩ := hf
      cases c <;> decide
    · rw [mem_labelFlags] at hf
      obtain ⟨lab, hmem, hfl, rfl⟩ := hf
      rw [List.any_eq_false] at hR'
      exact absurd hfl (by simpa using hR' lab hmem)

theorem any_perm_eq {f1 f2 : List Str} (h : f1.Perm f2) (p : Str → Bool) :
    f1.any p = f2.any p := by
  cases hx : f2.any p
  · rw [List.any_eq_false] at hx ⊢
    intro x hxm
    exact hx x (h.mem_iff.mp hxm)
  · rw [List.any_eq_true] at hx ⊢
    obtain ⟨x, hxm, hpx⟩ := hx
    exact ⟨x, h.mem_iff.mpr hxm, hpx⟩

theorem determine_safety_perm {f1 f2 : List Str} (h : f1.Perm f2) :
    determine_safety f1 = determine_safety f2 := by
  unfold determine_safety
  have h1 : ("adult".toList ∈ f1 ∨ "violence".toList ∈ f1) ↔
      ("adult".toList ∈ f2 ∨ "violence".toList ∈ f2) := by
    rw [h.mem_iff, h.mem_iff]
  have h2 := any_perm_eq h (fun f => ("label:".toList).isPrefixOf f)
  have h3 : (f1 = []) ↔ (f2 = []) := by
    constructor
    · intro hh; exact List.Perm.eq_nil (hh ▸ h.symm)
    · intro hh; exact List.Perm.eq_nil (hh ▸ h)
  by_cases ha : "adult".toList ∈ f2 ∨ "violence".toList ∈ f2
  · rw [if_pos (h1.mpr ha), if_pos ha]
  · rw [if_neg (fun hh => ha (h1.mp hh)), if_neg ha, h2]
    by_cases hb : f2.any (fun f => ("label:".toList).isPrefixOf f) = true
    · rw [if_pos hb, if_pos hb]
    · rw [if_neg hb, if_neg hb]
      by_cases hc : f2 = []
      · rw [if_pos (h3.mpr hc), if_pos hc]
      · rw [if_neg (fun hh => hc (h3.mp hh)), if_neg hc]

theorem overall_safety_spec (ss : SafeSearch) (labels : List Label) :
    overall_safety ss labels =
      if confidence_thresholds .adult ≤ likelihoodScore ss.adult ∨
         confidence_thresholds .violence ≤ likelihoodScore ss.violence then
        "unsafe".toList
      else if labels.any labelFlagged then "questionable".toList
      else if content_flags ss labels = [] then "safe".toList
      else "potentially_concerning".toList := by
  unfold overall_safety determine_safety
  have hcond : ("adult".toList ∈ content_flags ss labels ∨
      "violence".toList ∈ content_flags ss labels) ↔
      (confidence_thresholds .adult ≤ likelihoodScore ss.adult ∨
       confidence_thresholds .violence ≤ likelihoodScore ss.violence) := by
    rw [show ("adult".toList : Str) = catName .adult from rfl,
        show ("violence".toList : Str) = catName .violence from rfl,
        catName_mem_content_flags, catName_mem_content_flags]
    exact Iff.rfl
  rw [flags_any_label]
  by_cases h1 : confidence_thresholds .adult ≤ likelihoodScore ss.adult ∨
      confidence_thresholds .violence ≤ likelihoodScore ss.violence
  · rw [if_pos (hcond.mpr h1), if_pos h1]
  · rw [if_neg (fun hh => h1 (hcond.mp hh)), if_neg h1]

/-- Claim C4: every mask substituted for a flagged span or matched literal
value has exactly the length of the value it replaces: the generic
full-asterisk mask and the payment-card mask are length-preserving,
`str.replace` with a same-length replacement preserves the text length,
and the asterisk substitution of `content_filter.filter_text` preserves
the text length. -/
theorem mask_length_invariant :
    (∀ m : Str, (maskStar m).length = m.length) ∧
    (∀ item : Str, (maskCard item).length = item.length) ∧
    (∀ t p r : Str, r.length = p.length → (pyReplace t p r).length = t.length) ∧
    (∀ (p : Pattern) (s : Str), (subStars p s).length = s.length) := by
  refine ⟨?_, ?_, pyReplace_length, subStars_length⟩
  · intro m
    simp [maskStar]
  · intro item
    simp only [maskCard, List.length_append, List.length_replicate,
      List.length_drop]
    omega

/-- Witness for claim C4 at a concrete replacement. -/
theorem mask_length_invariant_witness :
    (pyReplace "call 4111".toList "4111".toList "****".toList).length
      = ("call 4111".toList).length :=
  mask_length_invariant.2.2.1 _ _ _ (by decide)

/-- Claim C7: the payment-card mask keeps the trailing four characters of
the value and replaces the remainder by asterisks; in particular
`"4111111111111111"` redacts to `"************1111"`. -/
theorem card_partial_reveal :
    (∀ item : Str,
      (maskCard item).length = item.length ∧
      (maskCard item).drop (item.length - 4) = item.drop (item.length - 4) ∧
      (maskCard item).take (item.length - 4) =
        List.replicate (item.length - 4) '*') ∧
    maskCard "4111111111111111".toList = "************1111".toList := by
  constructor
  · intro item
    refine ⟨?_, ?_, ?_⟩
    · simp only [maskCard, List.length_append, List.length_replicate,
        List.length_drop]
      omega
    · unfold maskCard
      have h := List.drop_left (List.replicate (item.length - 4) '*')
        (item.drop (item.length - 4))
      rw [List.length_replicate] at h
      exact h
    · unfold maskCard
      have h := List.take_left (List.replicate (item.length - 4) '*')
        (item.drop (item.length - 4))
      rw [List.length_replicate] at h
      exact h
  · decide

/-- Claim C2: decrypting the result of encrypting any text with the same
process-lifetime cipher instance returns the text exactly, assuming the
round-trip contracts of the external UTF-8, Fernet and base64 primitives
at the values actually passed to them. -/
theorem encrypt_decrypt_roundtrip (utf8 : Codec Str Bytes)
    (fernet : Codec Bytes Bytes) (b64 : Codec Bytes Str) (t : Str)
    (hu : utf8.dec (utf8.enc t) = some t)
    (hf : fernet.dec (fernet.enc (utf8.enc t)) = some (utf8.enc t))
    (hb : b64.dec (b64.enc (fernet.enc (utf8.enc t)))
      = some (fernet.enc (utf8.enc t))) :
    decrypt_content utf8 fernet b64 (encrypt_content utf8 fernet b64 t) = t := by
  simp [encrypt_content, decrypt_content, hb, hf, hu]

/-- Witness for claim C2 with the concrete codec instances. -/
theorem encrypt_decrypt_roundtrip_witness :
    decrypt_content asciiCodec tagCipher byteCodec
        (encrypt_content asciiCodec tagCipher byteCodec "secret".toList)
      = "secret".toList :=
  encrypt_decrypt_roundtrip asciiCodec tagCipher byteCodec _ (by decide)
    (by decide) (by decide)

/-- Claim C3, counterexample: with concrete codec instances, a malformed
`encrypted` input (rejected at the Fernet stage) is answered by the
`/decrypt` endpoint with HTTP 200 and an empty decrypted string — not
with HTTP 500 as the claim states. -/
theorem decrypt_malformed_counterexample :
    (decrypt_endpoint asciiCodec tagCipher byteCodec
        (some "garbage".toList)).1 = 200 ∧
    (decrypt_endpoint asciiCodec tagCipher byteCodec
        (some "garbage".toList)).1 ≠ 500 ∧
    (decrypt_endpoint asciiCodec tagCipher byteCodec
        (some "garbage".toList)).2 = some [] := by
  decide

/-- Claim C3 as amended: on any input rejected by one of the decoding
stages, `decrypt_content` returns the empty string — never corrupted
plaintext — and the `/decrypt` endpoint surfaces this as HTTP 200 with an
empty `decrypted` field; the endpoint never answers 500. -/
theorem decrypt_malformed_amended (utf8 : Codec Str Bytes)
    (fernet : Codec Bytes Bytes) (b64 : Codec Bytes Str) :
    (∀ body, (decrypt_endpoint utf8 fernet b64 body).1 ≠ 500) ∧
    (∀ e : Str,
      (b64.dec e = none ∨
       (∃ x, b64.dec e = some x ∧ fernet.dec x = none) ∨
       (∃ x y, b64.dec e = some x ∧ fernet.dec x = some y ∧
         utf8.dec y = none)) →
      decrypt_content utf8 fernet b64 e = [] ∧
      decrypt_endpoint utf8 fernet b64 (some e) = (200, some [])) := by
  constructor
  · intro body
    cases body <;> simp [decrypt_endpoint]
  · intro e hfail
    have hdc : decrypt_content utf8 fernet b64 e = [] := by
      rcases hfail with h | ⟨x, hx, hfx⟩ | ⟨x, y, hx, hfx, huy⟩ <;>
        simp [decrypt_content, *]
    exact ⟨hdc, by simp [decrypt_endpoint, hdc]⟩

/-- Witness for the amended claim C3 at a concrete malformed input. -/
theorem decrypt_malformed_amended_witness :
    decrypt_content asciiCodec tagCipher byteCodec "bad".toList = [] ∧
    decrypt_endpoint asciiCodec tagCipher byteCodec (some "bad".toList)
      = (200, some []) :=
  (decrypt_malformed_amended asciiCodec tagCipher byteCodec).2 "bad".toList
    (Or.inr (Or.inl ⟨[98, 97, 100], by decide, by decide⟩))

/-- Claim C5: the safety classifier is a deterministic, order-independent
total function of the flag set; the thresholds default to adult 0.7,
violence 0.6, racy 0.7, medical 0.8, spoof 0.8; and the verdict follows
the strict top-down precedence unsafe / questionable /
potentially-concerning / safe. -/
theorem safety_classifier_spec :
    (∀ f1 f2 : List Str, f1.Perm f2 →
      determine_safety f1 = determine_safety f2) ∧
    (confidence_thresholds .adult = 7 / 10 ∧
     confidence_thresholds .violence = 6 / 10 ∧
     confidence_thresholds .racy = 7 / 10 ∧
     confidence_thresholds .medical = 8 / 10 ∧
     confidence_thresholds .spoof = 8 / 10) ∧
    (∀ (ss : SafeSearch) (labels : List Label),
      overall_safety ss labels =
        if confidence_thresholds .adult ≤ likelihoodScore ss.adult ∨
           confidence_thresholds .violence ≤ likelihoodScore ss.violence then
          "unsafe".toList
        else if labels.any labelFlagged then "questionable".toList
        else if content_flags ss labels = [] then "safe".toList
        else "potentially_concerning".toList) :=
  ⟨fun _ _ h => determine_safety_perm h, ⟨rfl, rfl, rfl, rfl, rfl⟩,
    overall_safety_spec⟩

/-- Witness for claim C5: order-independence at a concrete permutation. -/
theorem safety_classifier_spec_witness :
    determine_safety ["violence".toList, "racy".toList] =
      determine_safety ["racy".toList, "violence".toList] :=
  safety_classifier_spec.1 _ _ (List.Perm.swap _ _ _)

/-- Claim C6: the adapter maps the six-point ordinal scale by the fixed
table 0.0 / 0.1 / 0.3 / 0.5 / 0.7 / 0.9, and a `label:` flag is emitted
for a description exactly when some label with that description has
confidence above 0.7 and contains a configured offensive term as a
case-insensitive substring. -/
theorem adapter_scores_and_label_flags :
    (likelihoodScore .unknown = 0 ∧ likelihoodScore .very_unlikely = 1 / 10 ∧
     likelihoodScore .unlikely = 3 / 10 ∧ likelihoodScore .possible = 5 / 10 ∧
     likelihoodScore .likely = 7 / 10 ∧
     likelihoodScore .very_likely = 9 / 10) ∧
    (∀ (ss : SafeSearch) (labels : List Label) (d : Str),
      ("label:".toList ++ d) ∈ content_flags ss labels ↔
        ∃ lab ∈ labels, lab.description = d ∧ (7 : ℚ) / 10 < lab.score ∧
          ∃ k ∈ offensive_terms, isSubstr k (d.map Char.toLower) = true) := by
  constructor
  · exact ⟨rfl, rfl, rfl, rfl, rfl, rfl⟩
  · intro ss labels d
    unfold content_flags
    rw [List.mem_append]
    constructor
    · rintro (h | h)
      · unfold categoryFlags at h
        rw [List.mem_map] at h
        obtain ⟨c, _, hc⟩ := h
        exact absurd hc.symm (label_flag_not_cat d c)
      · rw [mem_labelFlags] at h
        obtain ⟨lab, hmem, hfl, heq⟩ := h
        have hd : d = lab.description := List.append_cancel_left heq
        unfold labelFlagged at hfl
        rw [Bool.and_eq_true, decide_eq_true_eq, List.any_eq_true] at hfl
        obtain ⟨hscore, k, hk, hsub⟩ := hfl
        exact ⟨lab, hmem, hd.symm, hscore, k, hk, hd ▸ hsub⟩
    · rintro ⟨lab, hmem, hd, hscore, k, hk, hsub⟩
      right
      rw [mem_labelFlags]
      refine ⟨lab, hmem, ?_, by rw [hd]⟩
      unfold labelFlagged
      rw [Bool.and_eq_true, decide_eq_true_eq, List.any_eq_true]
      exact ⟨hscore, k, hk, by rw [hd]; exact hsub⟩

/-- Claim C9: an `adult` flag — either already in the flag set, or arising
from an adult score at or above the threshold — forces the verdict
`unsafe`, whatever else the flag set contains. -/
theorem adult_flag_forces_unsafe :
    (∀ F : List Str, determine_safety ("adult".toList :: F) = "unsafe".toList) ∧
    (∀ (ss : SafeSearch) (labels : List Label),
      confidence_thresholds .adult ≤ likelihoodScore ss.adult →
      overall_safety ss labels = "unsafe".toList) := by
  constructor
  · intro F
    unfold determine_safety
    rw [if_pos (Or.inl (List.mem_cons_self _ _))]
  · intro ss labels h
    have hmem : "adult".toList ∈ content_flags ss labels :=
      (catName_mem_content_flags ss labels .adult).mpr h
    unfold overall_safety determine_safety
    rw [if_pos (Or.inl hmem)]

/-- Witness for claim C9 at a concrete flag set and a concrete scored
response. -/
theorem adult_flag_forces_unsafe_witness :
    overall_safety ⟨.very_likely, .unknown, .unknown, .unknown, .unknown⟩ []
      = "unsafe".toList :=
  adult_flag_forces_unsafe.2 _ []
    (by norm_num [likelihoodScore, confidence_thresholds])

/-- Claim C1, counterexample: recovery is not exact for every text.  The
original `"**** kill"` already contains the four-asterisk mask produced
for the flagged value `"kill"`; after redaction the processed text is
`"**** ****"`, and recovery's value-based replacement restores
`"kill kill"` instead of the original. -/
theorem recovery_fidelity_counterexample :
    recover tagDec
        (redact tagEnc "**** kill".toList
          [("kill".toList, MaskRule.generic)]).modified
        (redact tagEnc "**** kill".toList
          [("kill".toList, MaskRule.generic)]).log
      ≠ some ("**** kill".toList) := by
  decide

/-- Claim C1 as amended: for a single redacted value, recovery restores
the exact original whenever the original text contains no asterisk (so
the produced mask cannot collide with pre-existing content), the value is
nonempty, and the cipher round-trips on that value. -/
theorem recovery_fidelity_single (enc : Str → Str) (dec : Str → Option Str)
    (t v : Str) (rule : MaskRule)
    (hdec : dec (enc v) = some v) (hv : v ≠ [])
    (hstar : ∀ c ∈ t, c ≠ '*') :
    recover dec (redact enc t [(v, rule)]).modified
        (redact enc t [(v, rule)]).log
      = some t := by
  have hred : redact enc t [(v, rule)] =
      ⟨t, pyReplace t v (maskFor rule v), [⟨enc v, rule⟩]⟩ := rfl
  rw [hred]
  have hrec : recover dec (pyReplace t v (maskFor rule v)) [⟨enc v, rule⟩]
      = some (pyReplace (pyReplace t v (maskFor rule v)) (maskFor rule v) v) := by
    simp [recover, hdec]
  rw [hrec]
  cases rule with
  | generic =>
    refine congrArg some (pyReplace_roundtrip t v _ hstar hv ?_)
    cases v with
    | nil => exact absurd rfl hv
    | cons c v' =>
      exact ⟨List.replicate v'.length '*', by
        simp [maskFor, maskStar, List.replicate_succ]⟩
  | card =>
    by_cases hlen : v.length ≤ 4
    · have hm : maskFor .card v = v := by
        simp only [maskFor, maskCard]
        have h0 : v.length - 4 = 0 := by omega
        rw [h0]
        simp
      rw [hm, pyReplace_self, pyReplace_self]
    · refine congrArg some (pyReplace_roundtrip t v _ hstar hv ?_)
      obtain ⟨k, hk⟩ : ∃ k, v.length - 4 = k + 1 := ⟨v.length - 5, by omega⟩
      refine ⟨List.replicate k '*' ++ v.drop (v.length - 4), ?_⟩
      simp only [maskFor, maskCard]
      rw [hk, List.replicate_succ, List.cons_append]

/-- Witness for the amended claim C1: a concrete card number inside
asterisk-free text redacts and recovers exactly. -/
theorem recovery_fidelity_single_witness :
    recover tagDec
        (redact tagEnc "call 4111222233334444 now".toList
          [("4111222233334444".toList, MaskRule.card)]).modified
        (redact tagEnc "call 4111222233334444 now".toList
          [("4111222233334444".toList, MaskRule.card)]).log
      = some ("call 4111222233334444 now".toList) :=
  recovery_fidelity_single tagEnc tagDec _ _ .card (by decide) (by decide)
    (by decide)

/-- Claim C8: on input that is empty, whitespace-only, or matched by no
pattern, `filter_text` is a no-op pass-through and not an error: it
returns `filtered = false` with the modified content equal to the
original, no encrypted payload and no pattern list, and only the
total-request counter is bumped. -/
theorem no_flag_passthrough (utf8 : Codec Str Bytes)
    (fernet : Codec Bytes Bytes) (b64 : Codec Bytes Str) (st : CFStats)
    (t : Str)
    (h : t.all Char.isWhitespace = true ∨
         cfPatterns.all (fun p => !searchP p t) = true) :
    ∃ reason : Str,
      filter_text utf8 fernet b64 st (some t) =
        ({ filtered := false, reason := reason, original := some t,
           modified := some t, patterns := none, encrypted := none },
         { st with total_requests := st.total_requests + 1 }) := by
  have hnomatch : ∀ p ∈ cfPatterns, searchP p t = false := by
    rcases h with h | h
    · intro p hp
      refine searchP_ws_false (List.all_eq_true.mp cfPatterns_wf p hp) ?_
      intro c hc
      exact List.all_eq_true.mp h c hc
    · intro p hp
      have hb := List.all_eq_true.mp h p hp
      simp only [Bool.not_eq_true'] at hb
      exact hb
  by_cases hlen : t.length < 3
  · exact ⟨"Text too short".toList, by simp [filter_text, hlen]⟩
  · refine ⟨"No inappropriate content detected".toList, ?_⟩
    have hempty : (cfPatterns.filter (fun p => searchP p t)).isEmpty = true := by
      rw [List.isEmpty_iff, List.filter_eq_nil_iff]
      intro p hp
      simp [hnomatch p hp]
    simp [filter_text, hlen, hempty]

/-- Witness for claim C8 at the empty string. -/
theorem no_flag_passthrough_witness :
    ∃ reason : Str,
      filter_text asciiCodec tagCipher byteCodec ⟨0, 0, 0⟩ (some []) =
        ({ filtered := false, reason := reason, original := some [],
           modified := some [], patterns := none, encrypted := none },
         { text_filtered := 0, images_filtered := 0, total_requests := 1 }) :=
  no_flag_passthrough asciiCodec tagCipher byteCodec ⟨0, 0, 0⟩ []
    (Or.inl (by decide))

/-- Claim C10: a missing text or a text shorter than three characters is
rejected early with reason "Text too short": the result is unfiltered
with the input echoed unchanged, no pattern matching or encryption result
is produced, and only the total-request counter is bumped — the
`text_filtered` counter is untouched. -/
theorem short_text_early_return (utf8 : Codec Str Bytes)
    (fernet : Codec Bytes Bytes) (b64 : Codec Bytes Str) (st : CFStats)
    (t : Option Str) (h : t = none ∨ ∃ s, t = some s ∧ s.length < 3) :
    filter_text utf8 fernet b64 st t =
      ({ filtered := false, reason := "Text too short".toList, original := t,
         modified := t, patterns := none, encrypted := none },
       { st with total_requests := st.total_requests + 1 }) := by
  rcases h with rfl | ⟨s, rfl, hs⟩
  · rfl
  · simp [filter_text, hs]

/-- Witness for claim C10 at a concrete two-character input. -/
theorem short_text_early_return_witness :
    filter_text asciiCodec tagCipher byteCodec ⟨1, 2, 3⟩ (some "ab".toList) =
      ({ filtered := false, reason := "Text too short".toList,
         original := some "ab".toList, modified := some "ab".toList,
         patterns := none, encrypted := none },
       ⟨1, 2, 4⟩) := by
  have h := short_text_early_return asciiCodec tagCipher byteCodec ⟨1, 2, 3⟩
    (some "ab".toList) (Or.inr ⟨"ab".toList, rfl, by decide⟩)
  simpa using h
